import Mathlib

/-!
A shallow embedding of the ThreadPool implementation in
src/ThreadPool/ThreadPool.h, together with the packaged-task wrapper of
src/ThreadPool/Callable.h.

The pool state mirrors the data members of class ThreadPool:
tasksQueue_ (a std::queue of Task), completedTaskIds_ (a std::unordered_set
of int64_t), lastTaskId_ (std::atomic int64_t), isTerminated_
(std::atomic_bool), and one program counter per worker thread (threads_).

Concurrency is modelled by an interleaving semantics: every critical section
guarded by mutex_q_ or mutex_s_, and every single access to an atomic
variable, is one atomic transition of a labelled step function.  This is
faithful at the granularity the source synchronises at: all queue accesses
happen under mutex_q_, all completed-set accesses under mutex_s_, and
lastTaskId_ / isTerminated_ are sequentially consistent atomics.

The body of a submitted task is opaque to the pool, so it is abstracted by
its observable outcome: the invocation either returns normally or raises an
exception.
-/

namespace ThreadPool

/-- Outcome of invoking a task body: it returns normally or raises an
exception. -/
inductive ExecOutcome
  | ok
  | raises
deriving DecidableEq

/-- One enqueued unit of work, mirroring struct ThreadPool::Task with members
std::function executable and int64_t taskId.  executable = none models the
empty std::function of a default-constructed Task (invoking it would throw
std::bad_function_call); tasks built by addTask always carry some body. -/
structure Task where
  executable : Option ExecOutcome
  taskId : Int
deriving DecidableEq

/-- Program counter of one worker thread running ThreadPool::threadMain.
idle: at the top of the while loop, blocked on cv_new_task_ until the queue
is non-empty.  executing t: popped t under mutex_q_, about to run
t.executable() outside the lock.  completing tid: the body returned
normally, about to insert tid into completedTaskIds_ under mutex_s_.
stopped: left the loop through the break.  crashed: an exception escaped
taskToComplete.executable(); threadMain has no handler, so the exception
propagates out of the thread function and std::terminate is called. -/
inductive WorkerPhase
  | idle
  | executing (t : Task)
  | completing (tid : Int)
  | stopped
  | crashed
deriving DecidableEq

/-- The shared state of class ThreadPool plus the workers' program
counters. -/
structure PoolState where
  tasksQueue : List Task
  completedTaskIds : Finset Int
  lastTaskId : Int
  isTerminated : Bool
  workers : List WorkerPhase
deriving DecidableEq

/-- The sentinel pushed by ThreadPool::stopProcessingTasks via
tasksQueue_.emplace(): a default-constructed Task, i.e. an empty
std::function and taskId 0. -/
def sentinelTask : Task := { executable := none, taskId := 0 }

/-- Atomic transitions of the pool.  Each label is one critical section or
one atomic access of the source:
addTask body - the mutex_q_ critical section of ThreadPool::addTask
  (tasksQueue_.emplace with the pre-incremented lastTaskId_);
storeTerminated - isTerminated_.store(true) at the start of
  stopProcessingTasks;
pushSentinel - the mutex_q_ critical section of stopProcessingTasks
  (tasksQueue_.emplace() of a default Task);
workerTake i - worker i wakes under mutex_q_ with a non-empty queue, reads
  isTerminated_ as false, moves the front task out and pops it;
workerExit i - worker i wakes under mutex_q_ with a non-empty queue, reads
  isTerminated_ as true, and breaks out of the loop;
workerRun i - worker i invokes taskToComplete.executable() outside any lock;
workerFinish i - the mutex_s_ critical section of threadMain
  (completedTaskIds_.emplace) followed by cv_completed_task_.notify_all(). -/
inductive Event
  | addTask (body : ExecOutcome)
  | storeTerminated
  | pushSentinel
  | workerTake (i : Nat)
  | workerExit (i : Nat)
  | workerRun (i : Nat)
  | workerFinish (i : Nat)
deriving DecidableEq

/-- One atomic transition.  none means the event is not enabled in s (its
thread is blocked or at a different program point).

The pushSentinel branch requires isTerminated = true: in
stopProcessingTasks the store to the atomic flag precedes the emplace in
program order, and no transition ever clears the flag, so when the emplace
runs the flag is already true; the guard records that program-order fact.

The workerTake/workerExit guard mirrors the source exactly: the condition
variable predicate only checks that the queue is non-empty, and the
isTerminated_ test decides between break (before popping anything) and
popping the front task. -/
def step (s : PoolState) : Event → Option PoolState
  | Event.addTask body =>
      some { s with
        lastTaskId := s.lastTaskId + 1,
        tasksQueue := s.tasksQueue ++ [{ executable := some body, taskId := s.lastTaskId + 1 }] }
  | Event.storeTerminated => some { s with isTerminated := true }
  | Event.pushSentinel =>
      if s.isTerminated then
        some { s with tasksQueue := s.tasksQueue ++ [sentinelTask] }
      else none
  | Event.workerTake i =>
      match s.workers.get? i, s.tasksQueue with
      | some WorkerPhase.idle, t :: rest =>
          if s.isTerminated then none
          else some { s with
            tasksQueue := rest,
            workers := s.workers.set i (WorkerPhase.executing t) }
      | _, _ => none
  | Event.workerExit i =>
      match s.workers.get? i, s.tasksQueue with
      | some WorkerPhase.idle, _ :: _ =>
          if s.isTerminated then some { s with workers := s.workers.set i WorkerPhase.stopped }
          else none
      | _, _ => none
  | Event.workerRun i =>
      match s.workers.get? i with
      | some (WorkerPhase.executing t) =>
          match t.executable with
          | some ExecOutcome.ok =>
              some { s with workers := s.workers.set i (WorkerPhase.completing t.taskId) }
          | some ExecOutcome.raises =>
              some { s with workers := s.workers.set i WorkerPhase.crashed }
          | none =>
              some { s with workers := s.workers.set i WorkerPhase.crashed }
      | _ => none
  | Event.workerFinish i =>
      match s.workers.get? i with
      | some (WorkerPhase.completing tid) =>
          some { s with
            completedTaskIds := insert tid s.completedTaskIds,
            workers := s.workers.set i WorkerPhase.idle }
      | _ => none

/-- Run a sequence of interleaved transitions. -/
def run (s : PoolState) : List Event → Option PoolState
  | [] => some s
  | e :: es =>
      match step s e with
      | some s' => run s' es
      | none => none

/-- The state produced by ThreadPool::ThreadPool(numThreads): empty queue,
empty completed set, lastTaskId_ = 0, isTerminated_ = false, and numThreads
workers at the top of threadMain. -/
def initState (numThreads : Nat) : PoolState :=
  { tasksQueue := []
    completedTaskIds := ∅
    lastTaskId := 0
    isTerminated := false
    workers := List.replicate numThreads WorkerPhase.idle }

/-- The id stored into the Task that the critical section of
ThreadPool::addTask enqueues when it runs in state s: the value of the
pre-increment ++lastTaskId_. -/
def addTaskAssignedId (s : PoolState) : Int := s.lastTaskId + 1

/-- The value produced by the statement `return lastTaskId_;` of
ThreadPool::addTask when it executes in state s: a fresh atomic load of
lastTaskId_, performed after the queue lock has been released. -/
def addTaskReturn (s : PoolState) : Int := s.lastTaskId

/-- ThreadPool::isValidTaskId: taskId <= lastTaskId_ && taskId > 0. -/
def isValidTaskId (s : PoolState) (taskId : Int) : Bool :=
  taskId ≤ s.lastTaskId && taskId > 0

/-- ThreadPool::isCompleted: the invalid-id test happens first and returns
false before any lock is taken; otherwise the completed set is consulted
under mutex_s_. -/
def isCompleted (s : PoolState) (taskId : Int) : Bool :=
  if !(isValidTaskId s taskId) then false
  else decide (taskId ∈ s.completedTaskIds)

/-- ThreadPool::waitTask only enters the condition-variable wait when
isValidTaskId holds; for an invalid id the body is skipped and the call
returns immediately.  This function is true exactly when the call returns
without ever blocking on cv_completed_task_. -/
def waitTaskReturnsImmediately (s : PoolState) (taskId : Int) : Bool :=
  !(isValidTaskId s taskId)

/-- The predicate of the condition-variable wait in ThreadPool::waitAll:
completedTaskIds_.size() == lastTaskId_, both read within one acquisition
of mutex_s_ (lastTaskId_ by a single atomic load).  waitAll returns exactly
when one evaluation of this predicate yields true. -/
def waitAllPred (s : PoolState) : Prop :=
  (s.completedTaskIds.card : Int) = s.lastTaskId

instance (s : PoolState) : Decidable (waitAllPred s) :=
  inferInstanceAs (Decidable ((s.completedTaskIds.card : Int) = s.lastTaskId))

/-- The completed-task count of the pool.  The source keeps no separate
counter: the count is completedTaskIds_.size(). -/
def completedCount (s : PoolState) : Nat := s.completedTaskIds.card

/-- Shared state of the future paired with a std::packaged_task. -/
inductive FutureState
  | pending
  | value
  | exn
deriving DecidableEq

/-- Invoking a std::packaged_task over a body with the given outcome, as
done by callable_derived::operator() in src/ThreadPool/Callable.h: the
stored callable runs; its return value or its raised exception is stored
into the shared state, and the invocation itself returns normally in either
case (std::packaged_task::operator() does not propagate the exception).
The first component is the outcome seen by the invoking worker, the second
the resulting future state. -/
def packagedTaskInvoke (body : ExecOutcome) : ExecOutcome × FutureState :=
  match body with
  | ExecOutcome.ok => (ExecOutcome.ok, FutureState.value)
  | ExecOutcome.raises => (ExecOutcome.ok, FutureState.exn)

/-- Ids popped by workerTake events along a trace (the dequeue history). -/
def takeDelta (s : PoolState) : Event → List Int
  | Event.workerTake _ =>
      match s.tasksQueue with
      | t :: _ => [t.taskId]
      | [] => []
  | _ => []

/-- Ids whose executable is invoked by workerRun events along a trace. -/
def execDelta (s : PoolState) : Event → List Int
  | Event.workerRun i =>
      match s.workers.get? i with
      | some (WorkerPhase.executing t) => [t.taskId]
      | _ => []
  | _ => []

/-- Ids assigned by addTask events along a trace (the submission history). -/
def submitDelta (s : PoolState) : Event → List Int
  | Event.addTask _ => [addTaskAssignedId s]
  | _ => []

/-- The dequeue history of a trace: the task ids popped by workers, in the
order the pops happen. -/
def takesAlong (s : PoolState) : List Event → List Int
  | [] => []
  | e :: es =>
      match step s e with
      | some s' => takeDelta s e ++ takesAlong s' es
      | none => []

/-- The execution history of a trace: the task ids whose executable is
invoked, in invocation order. -/
def execsAlong (s : PoolState) : List Event → List Int
  | [] => []
  | e :: es =>
      match step s e with
      | some s' => execDelta s e ++ execsAlong s' es
      | none => []

/-- The submission history of a trace: the task ids assigned by addTask, in
assignment order. -/
def submitsAlong (s : PoolState) : List Event → List Int
  | [] => []
  | e :: es =>
      match step s e with
      | some s' => submitDelta s e ++ submitsAlong s' es
      | none => []

/-- A first-order view of the real (addTask-created) tasks sitting in the
queue: their ids, in queue order.  The sentinel (empty executable) is not a
real task. -/
def realIds (q : List Task) : List Int :=
  (q.filter (fun t => t.executable.isSome)).map Task.taskId

def realQueueIds (s : PoolState) : List Int :=
  realIds s.tasksQueue

theorem realIds_append (q r : List Task) : realIds (q ++ r) = realIds q ++ realIds r := by
  simp [realIds]

theorem realIds_cons_some {t : Task} (q : List Task) (h : t.executable.isSome = true) :
    realIds (t :: q) = t.taskId :: realIds q := by
  simp [realIds, List.filter_cons, h]

theorem realIds_sentinel : realIds [sentinelTask] = [] := by
  simp [realIds, List.filter_cons, sentinelTask]

theorem get?_some_lt {α : Type} {l : List α} {i : Nat} {a : α}
    (h : l.get? i = some a) : i < l.length := by
  by_contra hlt
  rw [List.get?_eq_none.mpr (Nat.le_of_not_lt hlt)] at h
  cases h

/-- State invariant of the pool, preserved by every transition.
completedSub is the completion-tracker invariant of the spec; the queue and
worker-phase clauses record which ids real tasks and the sentinel carry and
that a worker only ever holds a real task. -/
structure Inv (s : PoolState) : Prop where
  lastNonneg : 0 ≤ s.lastTaskId
  completedSub : s.completedTaskIds ⊆ Finset.Icc 1 s.lastTaskId
  queueReal : ∀ t ∈ s.tasksQueue, t.executable.isSome = true →
      1 ≤ t.taskId ∧ t.taskId ≤ s.lastTaskId
  queueSentinel : ∀ t ∈ s.tasksQueue, t.executable = none →
      t.taskId = 0 ∧ s.isTerminated = true
  queueSorted : s.isTerminated = false → (s.tasksQueue.map Task.taskId).Sorted (· < ·)
  execPhase : ∀ i t, s.workers.get? i = some (WorkerPhase.executing t) →
      t.executable.isSome = true ∧ 1 ≤ t.taskId ∧ t.taskId ≤ s.lastTaskId
  finPhase : ∀ i tid, s.workers.get? i = some (WorkerPhase.completing tid) →
      1 ≤ tid ∧ tid ≤ s.lastTaskId

theorem initState_Inv (n : Nat) : Inv (initState n) := by
  refine ⟨le_refl 0, ?_, ?_, ?_, ?_, ?_, ?_⟩
  · intro x hx; cases hx
  · intro t ht; cases ht
  · intro t ht; cases ht
  · intro _; simp [initState]
  · intro i t h
    have := List.eq_of_mem_replicate (List.get?_mem h)
    cases this
  · intro i tid h
    have := List.eq_of_mem_replicate (List.get?_mem h)
    cases this

theorem step_Inv {s s' : PoolState} {e : Event} (hs : step s e = some s') (hi : Inv s) :
    Inv s' := by
  obtain ⟨hnn, hcs, hqr, hqs, hsort, hex, hfin⟩ := hi
  cases e with
  | addTask body =>
      simp only [step, Option.some.injEq] at hs
      subst hs
      refine ⟨by simp; omega, ?_, ?_, ?_, ?_, ?_, ?_⟩
      · exact hcs.trans (Finset.Icc_subset_Icc le_rfl (by simp))
      · intro t ht hre
        rcases List.mem_append.mp ht with h | h
        · have := hqr t h hre
          simp only []
          omega
        · simp only [List.mem_singleton] at h
          subst h
          simp
          omega
      · intro t ht hne
        rcases List.mem_append.mp ht with h | h
        · exact hqs t h hne
        · simp only [List.mem_singleton] at h
          subst h
          simp at hne
      · intro hterm
        rw [List.map_append]
        refine List.pairwise_append.mpr ⟨hsort hterm, by simp, ?_⟩
        intro x hx y hy
        simp only [List.map_cons, List.map_nil, List.mem_singleton] at hy
        subst hy
        obtain ⟨t, ht, rfl⟩ := List.mem_map.mp hx
        cases hcase : t.executable with
        | none =>
            have h0 := hqs t ht hcase
            rw [h0.2] at hterm
            cases hterm
        | some o =>
            have := hqr t ht (by rw [hcase]; rfl)
            omega
      · intro i t h
        have := hex i t h
        exact ⟨this.1, this.2.1, by have := this.2.2; simp; omega⟩
      · intro i tid h
        have := hfin i tid h
        refine ⟨this.1, by have := this.2; simp; omega⟩
  | storeTerminated =>
      simp only [step, Option.some.injEq] at hs
      subst hs
      refine ⟨hnn, hcs, hqr, ?_, ?_, hex, hfin⟩
      · intro t ht hne
        exact ⟨(hqs t ht hne).1, rfl⟩
      · intro h
        cases h
  | pushSentinel =>
      simp only [step] at hs
      split at hs
      next hterm =>
        simp only [Option.some.injEq] at hs
        subst hs
        refine ⟨hnn, hcs, ?_, ?_, ?_, hex, hfin⟩
        · intro t ht hre
          rcases List.mem_append.mp ht with h | h
          · exact hqr t h hre
          · simp only [List.mem_singleton] at h
            subst h
            simp [sentinelTask] at hre
        · intro t ht hne
          rcases List.mem_append.mp ht with h | h
          · exact ⟨(hqs t h hne).1, hterm⟩
          · simp only [List.mem_singleton] at h
            subst h
            exact ⟨rfl, hterm⟩
        · intro h
          rw [h] at hterm
          cases hterm
      next => cases hs
  | workerTake i =>
      simp only [step] at hs
      split at hs
      next t rest hw hq =>
        split at hs
        next => cases hs
        next hterm =>
          simp only [Option.some.injEq] at hs
          subst hs
          have hterm' : s.isTerminated = false := by
            cases hb : s.isTerminated
            · rfl
            · exact absurd hb hterm
          have htm : t ∈ s.tasksQueue := by rw [hq]; exact List.mem_cons_self t rest
          have htr : t.executable.isSome = true := by
            cases hcase : t.executable with
            | none =>
                have h0 := hqs t htm hcase
                rw [h0.2] at hterm'
                cases hterm'
            | some o => rfl
          refine ⟨hnn, hcs, ?_, ?_, ?_, ?_, ?_⟩
          · intro u hu hre
            exact hqr u (by rw [hq]; exact List.mem_cons_of_mem t hu) hre
          · intro u hu hne
            exact hqs u (by rw [hq]; exact List.mem_cons_of_mem t hu) hne
          · intro h
            have := hsort h
            rw [hq, List.map_cons] at this
            exact this.of_cons
          · intro j u hj
            by_cases hij : i = j
            · subst hij
              rw [List.get?_set_eq_of_lt _ (get?_some_lt hw)] at hj
              have hu : WorkerPhase.executing t = WorkerPhase.executing u := by
                injection hj
              cases hu
              exact ⟨htr, (hqr t htm htr).1, (hqr t htm htr).2⟩
            · rw [List.get?_set_ne _ _ hij] at hj
              exact hex j u hj
          · intro j tid hj
            by_cases hij : i = j
            · subst hij
              rw [List.get?_set_eq_of_lt _ (get?_some_lt hw)] at hj
              cases hj
            · rw [List.get?_set_ne _ _ hij] at hj
              exact hfin j tid hj
      next => cases hs
  | workerExit i =>
      simp only [step] at hs
      split at hs
      next t rest hw hq =>
        split at hs
        next hterm =>
          simp only [Option.some.injEq] at hs
          subst hs
          refine ⟨hnn, hcs, hqr, hqs, hsort, ?_, ?_⟩
          · intro j u hj
            by_cases hij : i = j
            · subst hij
              rw [List.get?_set_eq_of_lt _ (get?_some_lt hw)] at hj
              cases hj
            · rw [List.get?_set_ne _ _ hij] at hj
              exact hex j u hj
          · intro j tid hj
            by_cases hij : i = j
            · subst hij
              rw [List.get?_set_eq_of_lt _ (get?_some_lt hw)] at hj
              cases hj
            · rw [List.get?_set_ne _ _ hij] at hj
              exact hfin j tid hj
        next => cases hs
      next => cases hs
  | workerRun i =>
      simp only [step] at hs
      split at hs
      next t hw =>
        have hb := hex i t hw
        split at hs
        next hcase =>
          simp only [Option.some.injEq] at hs
          subst hs
          refine ⟨hnn, hcs, hqr, hqs, hsort, ?_, ?_⟩
          · intro j u hj
            by_cases hij : i = j
            · subst hij
              rw [List.get?_set_eq_of_lt _ (get?_some_lt hw)] at hj
              cases hj
            · rw [List.get?_set_ne _ _ hij] at hj
              exact hex j u hj
          · intro j tid hj
            by_cases hij : i = j
            · subst hij
              rw [List.get?_set_eq_of_lt _ (get?_some_lt hw)] at hj
              have : t.taskId = tid := by injection hj with h; injection h
              subst this
              exact ⟨hb.2.1, hb.2.2⟩
            · rw [List.get?_set_ne _ _ hij] at hj
              exact hfin j tid hj
        next hcase =>
          simp only [Option.some.injEq] at hs
          subst hs
          refine ⟨hnn, hcs, hqr, hqs, hsort, ?_, ?_⟩
          · intro j u hj
            by_cases hij : i = j
            · subst hij
              rw [List.get?_set_eq_of_lt _ (get?_some_lt hw)] at hj
              cases hj
            · rw [List.get?_set_ne _ _ hij] at hj
              exact hex j u hj
          · intro j tid hj
            by_cases hij : i = j
            · subst hij
              rw [List.get?_set_eq_of_lt _ (get?_some_lt hw)] at hj
              cases hj
            · rw [List.get?_set_ne _ _ hij] at hj
              exact hfin j tid hj
        next hcase =>
          simp only [Option.some.injEq] at hs
          subst hs
          refine ⟨hnn, hcs, hqr, hqs, hsort, ?_, ?_⟩
          · intro j u hj
            by_cases hij : i = j
            · subst hij
              rw [List.get?_set_eq_of_lt _ (get?_some_lt hw)] at hj
              cases hj
            · rw [List.get?_set_ne _ _ hij] at hj
              exact hex j u hj
          · intro j tid hj
            by_cases hij : i = j
            · subst hij
              rw [List.get?_set_eq_of_lt _ (get?_some_lt hw)] at hj
              cases hj
            · rw [List.get?_set_ne _ _ hij] at hj
              exact hfin j tid hj
      next => cases hs
  | workerFinish i =>
      simp only [step] at hs
      split at hs
      next tid hw =>
        simp only [Option.some.injEq] at hs
        subst hs
        have hb := hfin i tid hw
        refine ⟨hnn, ?_, hqr, hqs, hsort, ?_, ?_⟩
        · exact Finset.insert_subset (Finset.mem_Icc.mpr ⟨hb.1, hb.2⟩) hcs
        · intro j u hj
          by_cases hij : i = j
          · subst hij
            rw [List.get?_set_eq_of_lt _ (get?_some_lt hw)] at hj
            cases hj
          · rw [List.get?_set_ne _ _ hij] at hj
            exact hex j u hj
        · intro j tid2 hj
          by_cases hij : i = j
          · subst hij
            rw [List.get?_set_eq_of_lt _ (get?_some_lt hw)] at hj
            cases hj
          · rw [List.get?_set_ne _ _ hij] at hj
            exact hfin j tid2 hj
      next => cases hs

theorem run_Inv {s s' : PoolState} {es : List Event} (hr : run s es = some s')
    (hi : Inv s) : Inv s' := by
  induction es generalizing s with
  | nil =>
      simp only [run, Option.some.injEq] at hr
      rwa [← hr]
  | cons e es ih =>
      simp only [run] at hr
      cases hstep : step s e with
      | none => rw [hstep] at hr; cases hr
      | some s1 =>
          rw [hstep] at hr
          exact ih hr (step_Inv hstep hi)

theorem step_lastTaskId_mono {s s' : PoolState} {e : Event} (hs : step s e = some s') :
    s.lastTaskId ≤ s'.lastTaskId := by
  cases e <;> simp only [step] at hs <;>
    (repeat' split at hs) <;>
    (first
      | (simp only [Option.some.injEq] at hs; subst hs; dsimp only; omega)
      | cases hs)

theorem run_lastTaskId_mono {s s' : PoolState} {es : List Event}
    (hr : run s es = some s') : s.lastTaskId ≤ s'.lastTaskId := by
  induction es generalizing s with
  | nil =>
      simp only [run, Option.some.injEq] at hr
      rw [← hr]
  | cons e es ih =>
      simp only [run] at hr
      cases hstep : step s e with
      | none => rw [hstep] at hr; cases hr
      | some s1 =>
          rw [hstep] at hr
          exact le_trans (step_lastTaskId_mono hstep) (ih hr)

theorem step_terminated_mono {s s' : PoolState} {e : Event} (hs : step s e = some s')
    (h : s.isTerminated = true) : s'.isTerminated = true := by
  cases e <;> simp only [step] at hs <;>
    (repeat' split at hs) <;>
    (first
      | (simp only [Option.some.injEq] at hs; subst hs; first | rfl | exact h)
      | cases hs)

theorem run_terminated_mono {s s' : PoolState} {es : List Event}
    (hr : run s es = some s') (h : s.isTerminated = true) : s'.isTerminated = true := by
  induction es generalizing s with
  | nil =>
      simp only [run, Option.some.injEq] at hr
      rw [← hr]; exact h
  | cons e es ih =>
      simp only [run] at hr
      cases hstep : step s e with
      | none => rw [hstep] at hr; cases hr
      | some s1 =>
          rw [hstep] at hr
          exact ih hr (step_terminated_mono hstep h)

/-- With the terminated flag set, the workerTake transition is never
enabled: a worker that wakes with a non-empty queue reads isTerminated_ as
true and breaks before popping. -/
theorem step_terminated_no_take (s : PoolState) (i : Nat)
    (h : s.isTerminated = true) : step s (Event.workerTake i) = none := by
  simp only [step]
  split
  next => simp [h]
  next => rfl

/-- After the terminated flag is set, no trace ever dequeues a task
again. -/
theorem takesAlong_terminated {s : PoolState} (h : s.isTerminated = true)
    (es : List Event) : takesAlong s es = [] := by
  induction es generalizing s with
  | nil => rfl
  | cons e es ih =>
      cases hstep : step s e with
      | none => simp [takesAlong, hstep]
      | some s1 =>
          have hdelta : takeDelta s e = [] := by
            cases e with
            | workerTake i => rw [step_terminated_no_take s i h] at hstep; cases hstep
            | addTask body => rfl
            | storeTerminated => rfl
            | pushSentinel => rfl
            | workerExit i => rfl
            | workerRun i => rfl
            | workerFinish i => rfl
          simp [takesAlong, hstep, hdelta, ih (step_terminated_mono hstep h)]

theorem step_terminated_queue_len {s s' : PoolState} {e : Event}
    (hs : step s e = some s') (h : s.isTerminated = true) :
    s.tasksQueue.length ≤ s'.tasksQueue.length := by
  cases e with
  | workerTake i => rw [step_terminated_no_take s i h] at hs; cases hs
  | _ =>
      simp only [step] at hs
      (repeat' split at hs) <;>
        (first
          | (simp only [Option.some.injEq] at hs; subst hs; dsimp only; simp)
          | cases hs)

/-- Once the terminated flag is set, a non-empty queue stays non-empty
forever: tasks are only ever appended after shutdown, never removed. -/
theorem run_terminated_queue_ne {s s' : PoolState} {es : List Event}
    (hr : run s es = some s') (h : s.isTerminated = true)
    (hq : s.tasksQueue ≠ []) : s'.tasksQueue ≠ [] := by
  induction es generalizing s with
  | nil =>
      simp only [run, Option.some.injEq] at hr
      rw [← hr]; exact hq
  | cons e es ih =>
      simp only [run] at hr
      cases hstep : step s e with
      | none => rw [hstep] at hr; cases hr
      | some s1 =>
          rw [hstep] at hr
          refine ih hr (step_terminated_mono hstep h) ?_
          have hlen := step_terminated_queue_len hstep h
          intro hnil
          rw [hnil] at hlen
          simp at hlen
          exact hq hlen

/-- Trace invariant, relating the state to the dequeue history takes and
the execution history execs of the trace that produced it.  takesLt says
every dequeued id is smaller than every real id still queued (the queue is
FIFO and addTask assigns increasing ids); cover says every assigned id is
still queued or already dequeued; the held clauses track the tasks
currently owned by workers between their pop and their invocation. -/
structure TInv (s : PoolState) (takes execs : List Int) : Prop where
  inv : Inv s
  takesSorted : takes.Sorted (· < ·)
  takesLt : ∀ d ∈ takes, ∀ t ∈ s.tasksQueue, t.executable.isSome = true → d < t.taskId
  takesRange : ∀ d ∈ takes, 1 ≤ d ∧ d ≤ s.lastTaskId
  cover : ∀ tid : Int, 1 ≤ tid → tid ≤ s.lastTaskId → tid ∈ realQueueIds s ∨ tid ∈ takes
  heldTakes : ∀ i t, s.workers.get? i = some (WorkerPhase.executing t) → t.taskId ∈ takes
  execsTakes : ∀ d ∈ execs, d ∈ takes
  execsNodup : execs.Nodup
  heldFresh : ∀ i t, s.workers.get? i = some (WorkerPhase.executing t) → t.taskId ∉ execs
  heldDistinct : ∀ i j t u, i ≠ j → s.workers.get? i = some (WorkerPhase.executing t) →
      s.workers.get? j = some (WorkerPhase.executing u) → t.taskId ≠ u.taskId

theorem initState_TInv (n : Nat) : TInv (initState n) [] [] := by
  refine ⟨initState_Inv n, List.sorted_nil, ?_, ?_, ?_, ?_, ?_, List.nodup_nil, ?_, ?_⟩
  · intro d hd; cases hd
  · intro d hd; cases hd
  · intro tid h1 h2
    exfalso
    simp only [initState] at h2
    omega
  · intro i t h
    have := List.eq_of_mem_replicate (List.get?_mem h)
    cases this
  · intro d hd; cases hd
  · intro i t h
    have := List.eq_of_mem_replicate (List.get?_mem h)
    cases this
  · intro i j t u hij hi hj
    have := List.eq_of_mem_replicate (List.get?_mem hi)
    cases this

theorem step_TInv {s s' : PoolState} {e : Event} {takes execs : List Int}
    (hs : step s e = some s') (hT : TInv s takes execs) :
    TInv s' (takes ++ takeDelta s e) (execs ++ execDelta s e) := by
  have hInv' : Inv s' := step_Inv hs hT.inv
  obtain ⟨hInv, hts, htlt, htr, hcov, hht, het, hen, hhf, hhd⟩ := hT
  cases e with
  | addTask body =>
      simp only [takeDelta, execDelta, List.append_nil]
      simp only [step, Option.some.injEq] at hs
      subst hs
      refine ⟨hInv', hts, ?_, ?_, ?_, hht, het, hen, hhf, hhd⟩
      · intro d hd t ht hre
        dsimp only at ht
        rcases List.mem_append.mp ht with h | h
        · exact htlt d hd t h hre
        · simp only [List.mem_singleton] at h
          subst h
          have := htr d hd
          dsimp only
          omega
      · intro d hd
        have := htr d hd
        dsimp only
        omega
      · intro tid h1 h2
        dsimp only at h2
        simp only [realQueueIds]
        rw [realIds_append]
        by_cases hle : tid ≤ s.lastTaskId
        · rcases hcov tid h1 hle with h | h
          · exact Or.inl (List.mem_append_left _ h)
          · exact Or.inr h
        · have : tid = s.lastTaskId + 1 := by omega
          subst this
          exact Or.inl (List.mem_append_right _ (by simp [realIds]))
  | storeTerminated =>
      simp only [takeDelta, execDelta, List.append_nil]
      simp only [step, Option.some.injEq] at hs
      subst hs
      exact ⟨hInv', hts, htlt, htr, hcov, hht, het, hen, hhf, hhd⟩
  | pushSentinel =>
      simp only [takeDelta, execDelta, List.append_nil]
      simp only [step] at hs
      split at hs
      next hterm =>
        simp only [Option.some.injEq] at hs
        subst hs
        refine ⟨hInv', hts, ?_, htr, ?_, hht, het, hen, hhf, hhd⟩
        · intro d hd t ht hre
          dsimp only at ht
          rcases List.mem_append.mp ht with h | h
          · exact htlt d hd t h hre
          · simp only [List.mem_singleton] at h
            subst h
            simp [sentinelTask] at hre
        · intro tid h1 h2
          simp only [realQueueIds]
          rw [realIds_append, realIds_sentinel, List.append_nil]
          exact hcov tid h1 h2
      next => cases hs
  | workerTake i =>
      simp only [execDelta, List.append_nil]
      simp only [step] at hs
      split at hs
      next t rest hw hq =>
        split at hs
        next => cases hs
        next hterm =>
          simp only [Option.some.injEq] at hs
          subst hs
          have hterm' : s.isTerminated = false := by
            cases hb : s.isTerminated
            · rfl
            · exact absurd hb hterm
          have htm : t ∈ s.tasksQueue := by
            rw [hq]; exact List.mem_cons_self t rest
          have htre : t.executable.isSome = true := by
            cases hcase : t.executable with
            | none =>
                have h0 := hInv.queueSentinel t htm hcase
                rw [h0.2] at hterm'
                cases hterm'
            | some o => rfl
          have htb := hInv.queueReal t htm htre
          have hhead : ∀ x ∈ (rest.map Task.taskId), t.taskId < x := by
            have hsorted := hInv.queueSorted hterm'
            rw [hq, List.map_cons] at hsorted
            exact (List.sorted_cons.mp hsorted).1
          have hA : ∀ d ∈ takes, d < t.taskId := fun d hd => htlt d hd t htm htre
          have hB : t.taskId ∉ takes := fun h => lt_irrefl _ (hA _ h)
          simp only [takeDelta, hq]
          refine ⟨hInv', ?_, ?_, ?_, ?_, ?_, ?_, hen, ?_, ?_⟩
          · refine List.pairwise_append.mpr ⟨hts, by simp, ?_⟩
            intro x hx y hy
            simp only [List.mem_singleton] at hy
            subst hy
            exact hA x hx
          · intro d hd u hu hre
            dsimp only at hu
            rcases List.mem_append.mp hd with h | h
            · exact htlt d h u (by rw [hq]; exact List.mem_cons_of_mem t hu) hre
            · simp only [List.mem_singleton] at h
              subst h
              exact hhead u.taskId (List.mem_map_of_mem Task.taskId hu)
          · intro d hd
            rcases List.mem_append.mp hd with h | h
            · exact htr d h
            · simp only [List.mem_singleton] at h
              subst h
              exact ⟨htb.1, htb.2⟩
          · intro tid h1 h2
            dsimp only at h2
            rcases hcov tid h1 h2 with h | h
            · rw [realQueueIds, hq, realIds_cons_some rest htre] at h
              rcases List.mem_cons.mp h with h | h
              · subst h
                exact Or.inr (List.mem_append_right _ (by simp))
              · exact Or.inl h
            · exact Or.inr (List.mem_append_left _ h)
          · intro j u hj
            dsimp only at hj
            by_cases hij : i = j
            · subst hij
              rw [List.get?_set_eq_of_lt _ (get?_some_lt hw)] at hj
              have hu : WorkerPhase.executing t = WorkerPhase.executing u := by injection hj
              cases hu
              exact List.mem_append_right _ (by simp)
            · rw [List.get?_set_ne _ _ hij] at hj
              exact List.mem_append_left _ (hht j u hj)
          · intro d hd
            exact List.mem_append_left _ (het d hd)
          · intro j u hj
            dsimp only at hj
            by_cases hij : i = j
            · subst hij
              rw [List.get?_set_eq_of_lt _ (get?_some_lt hw)] at hj
              have hu : WorkerPhase.executing t = WorkerPhase.executing u := by injection hj
              cases hu
              intro hmem
              exact hB (het _ hmem)
            · rw [List.get?_set_ne _ _ hij] at hj
              exact hhf j u hj
          · intro j k u v hjk hj hk
            dsimp only at hj hk
            by_cases hij : i = j
            · subst hij
              rw [List.get?_set_eq_of_lt _ (get?_some_lt hw)] at hj
              have hu : WorkerPhase.executing t = WorkerPhase.executing u := by injection hj
              cases hu
              rw [List.get?_set_ne _ _ (by omega)] at hk
              have := hA v.taskId (hht k v hk)
              omega
            · rw [List.get?_set_ne _ _ hij] at hj
              by_cases hik : i = k
              · subst hik
                rw [List.get?_set_eq_of_lt _ (get?_some_lt hw)] at hk
                have hu : WorkerPhase.executing t = WorkerPhase.executing v := by injection hk
                cases hu
                have := hA u.taskId (hht j u hj)
                omega
              · rw [List.get?_set_ne _ _ hik] at hk
                exact hhd j k u v hjk hj hk
      next => cases hs
  | workerExit i =>
      simp only [takeDelta, execDelta, List.append_nil]
      simp only [step] at hs
      split at hs
      next t rest hw hq =>
        split at hs
        next hterm =>
          simp only [Option.some.injEq] at hs
          subst hs
          refine ⟨hInv', hts, htlt, htr, hcov, ?_, het, hen, ?_, ?_⟩
          · intro j u hj
            dsimp only at hj
            by_cases hij : i = j
            · subst hij
              rw [List.get?_set_eq_of_lt _ (get?_some_lt hw)] at hj
              cases hj
            · rw [List.get?_set_ne _ _ hij] at hj
              exact hht j u hj
          · intro j u hj
            dsimp only at hj
            by_cases hij : i = j
            · subst hij
              rw [List.get?_set_eq_of_lt _ (get?_some_lt hw)] at hj
              cases hj
            · rw [List.get?_set_ne _ _ hij] at hj
              exact hhf j u hj
          · intro j k u v hjk hj hk
            dsimp only at hj hk
            by_cases hij : i = j
            · subst hij
              rw [List.get?_set_eq_of_lt _ (get?_some_lt hw)] at hj
              cases hj
            · rw [List.get?_set_ne _ _ hij] at hj
              by_cases hik : i = k
              · subst hik
                rw [List.get?_set_eq_of_lt _ (get?_some_lt hw)] at hk
                cases hk
              · rw [List.get?_set_ne _ _ hik] at hk
                exact hhd j k u v hjk hj hk
        next => cases hs
      next => cases hs
  | workerRun i =>
      simp only [takeDelta, List.append_nil]
      simp only [step] at hs
      split at hs
      next t hw =>
        simp only [execDelta, hw]
        have hti : t.taskId ∈ takes := hht i t hw
        have htf : t.taskId ∉ execs := hhf i t hw
        have hsetcase : ∃ ph : WorkerPhase,
            (ph = WorkerPhase.completing t.taskId ∨ ph = WorkerPhase.crashed) ∧
            s' = { s with workers := s.workers.set i ph } := by
          split at hs
          next =>
            simp only [Option.some.injEq] at hs
            exact ⟨WorkerPhase.completing t.taskId, Or.inl rfl, hs.symm⟩
          next =>
            simp only [Option.some.injEq] at hs
            exact ⟨WorkerPhase.crashed, Or.inr rfl, hs.symm⟩
          next =>
            simp only [Option.some.injEq] at hs
            exact ⟨WorkerPhase.crashed, Or.inr rfl, hs.symm⟩
        obtain ⟨ph, hph, rfl⟩ := hsetcase
        have hphne : ∀ u : Task, ph ≠ WorkerPhase.executing u := by
          intro u hu
          rcases hph with h | h <;> (subst hu; cases h)
        refine ⟨hInv', hts, htlt, htr, hcov, ?_, ?_, ?_, ?_, ?_⟩
        · intro j u hj
          dsimp only at hj
          by_cases hij : i = j
          · subst hij
            rw [List.get?_set_eq_of_lt _ (get?_some_lt hw)] at hj
            have : ph = WorkerPhase.executing u := by injection hj
            exact absurd this (hphne u)
          · rw [List.get?_set_ne _ _ hij] at hj
            exact hht j u hj
        · intro d hd
          rcases List.mem_append.mp hd with h | h
          · exact het d h
          · simp only [List.mem_singleton] at h
            subst h
            exact hti
        · refine List.pairwise_append.mpr ⟨hen, by simp, ?_⟩
          intro x hx y hy
          simp only [List.mem_singleton] at hy
          subst hy
          intro hxy
          rw [hxy] at hx
          exact htf hx
        · intro j u hj
          dsimp only at hj
          by_cases hij : i = j
          · subst hij
            rw [List.get?_set_eq_of_lt _ (get?_some_lt hw)] at hj
            have : ph = WorkerPhase.executing u := by injection hj
            exact absurd this (hphne u)
          · rw [List.get?_set_ne _ _ hij] at hj
            intro hmem
            rcases List.mem_append.mp hmem with h | h
            · exact hhf j u hj h
            · simp only [List.mem_singleton] at h
              exact hhd j i u t (Ne.symm hij) hj hw h
        · intro j k u v hjk hj hk
          dsimp only at hj hk
          by_cases hij : i = j
          · subst hij
            rw [List.get?_set_eq_of_lt _ (get?_some_lt hw)] at hj
            have : ph = WorkerPhase.executing u := by injection hj
            exact absurd this (hphne u)
          · rw [List.get?_set_ne _ _ hij] at hj
            by_cases hik : i = k
            · subst hik
              rw [List.get?_set_eq_of_lt _ (get?_some_lt hw)] at hk
              have : ph = WorkerPhase.executing v := by injection hk
              exact absurd this (hphne v)
            · rw [List.get?_set_ne _ _ hik] at hk
              exact hhd j k u v hjk hj hk
      next => cases hs
  | workerFinish i =>
      simp only [takeDelta, execDelta, List.append_nil]
      simp only [step] at hs
      split at hs
      next tid hw =>
        simp only [Option.some.injEq] at hs
        subst hs
        refine ⟨hInv', hts, htlt, htr, hcov, ?_, het, hen, ?_, ?_⟩
        · intro j u hj
          dsimp only at hj
          by_cases hij : i = j
          · subst hij
            rw [List.get?_set_eq_of_lt _ (get?_some_lt hw)] at hj
            cases hj
          · rw [List.get?_set_ne _ _ hij] at hj
            exact hht j u hj
        · intro j u hj
          dsimp only at hj
          by_cases hij : i = j
          · subst hij
            rw [List.get?_set_eq_of_lt _ (get?_some_lt hw)] at hj
            cases hj
          · rw [List.get?_set_ne _ _ hij] at hj
            exact hhf j u hj
        · intro j k u v hjk hj hk
          dsimp only at hj hk
          by_cases hij : i = j
          · subst hij
            rw [List.get?_set_eq_of_lt _ (get?_some_lt hw)] at hj
            cases hj
          · rw [List.get?_set_ne _ _ hij] at hj
            by_cases hik : i = k
            · subst hik
              rw [List.get?_set_eq_of_lt _ (get?_some_lt hw)] at hk
              cases hk
            · rw [List.get?_set_ne _ _ hik] at hk
              exact hhd j k u v hjk hj hk
      next => cases hs

theorem run_TInv {s s' : PoolState} {es : List Event} {takes execs : List Int}
    (hr : run s es = some s') (hT : TInv s takes execs) :
    TInv s' (takes ++ takesAlong s es) (execs ++ execsAlong s es) := by
  induction es generalizing s takes execs with
  | nil =>
      simp only [run, Option.some.injEq] at hr
      subst hr
      simpa [takesAlong, execsAlong] using hT
  | cons e es ih =>
      simp only [run] at hr
      cases hstep : step s e with
      | none => rw [hstep] at hr; cases hr
      | some s1 =>
          rw [hstep] at hr
          have h1 := step_TInv hstep hT
          have h2 := ih hr h1
          rw [takesAlong, execsAlong, hstep]
          rw [← List.append_assoc, ← List.append_assoc]
          exact h2

theorem run_append (s : PoolState) (es1 es2 : List Event) :
    run s (es1 ++ es2) = Option.bind (run s es1) (fun s1 => run s1 es2) := by
  induction es1 generalizing s with
  | nil => rfl
  | cons e es ih =>
      simp only [List.cons_append, run]
      cases step s e with
      | none => rfl
      | some s1 => exact ih s1

theorem run_Inv_init {n : Nat} {es : List Event} {s : PoolState}
    (hr : run (initState n) es = some s) : Inv s :=
  run_Inv hr (initState_Inv n)

theorem run_TInv_init {n : Nat} {es : List Event} {s : PoolState}
    (hr : run (initState n) es = some s) :
    TInv s (takesAlong (initState n) es) (execsAlong (initState n) es) := by
  have h := run_TInv hr (initState_TInv n)
  simpa using h

/-- Along any trace, the ids assigned by addTask are strictly increasing and
bracketed by the lastTaskId counters at the ends of the trace. -/
theorem submitsAlong_sorted_bounds {es : List Event} {s s' : PoolState}
    (hr : run s es = some s') :
    (submitsAlong s es).Sorted (· < ·)
    ∧ ∀ d ∈ submitsAlong s es, s.lastTaskId < d ∧ d ≤ s'.lastTaskId := by
  induction es generalizing s with
  | nil =>
      refine ⟨List.sorted_nil, ?_⟩
      intro d hd
      cases hd
  | cons e es ih =>
      simp only [run] at hr
      cases hstep : step s e with
      | none => rw [hstep] at hr; cases hr
      | some s1 =>
          rw [hstep] at hr
          obtain ⟨ihs, ihb⟩ := ih hr
          have hm1 := step_lastTaskId_mono hstep
          have hm2 := run_lastTaskId_mono hr
          simp only [submitsAlong, hstep]
          cases e with
          | addTask body =>
              have hlast1 : s1.lastTaskId = s.lastTaskId + 1 := by
                simp only [step, Option.some.injEq] at hstep
                subst hstep
                rfl
              refine ⟨List.sorted_cons.mpr ⟨?_, ihs⟩, ?_⟩
              · intro b hb
                have := (ihb b hb).1
                simp only [submitDelta, addTaskAssignedId]
                omega
              · intro d hd
                simp only [submitDelta, addTaskAssignedId, List.cons_append, List.nil_append,
                  List.mem_cons] at hd
                rcases hd with h | h
                · subst h
                  constructor
                  · omega
                  · omega
                · have := ihb d h
                  constructor
                  · omega
                  · omega
          | storeTerminated =>
              refine ⟨by simpa using ihs, ?_⟩
              intro d hd
              simp only [submitDelta, List.nil_append] at hd
              have := ihb d hd
              exact ⟨lt_of_le_of_lt hm1 this.1, this.2⟩
          | pushSentinel =>
              refine ⟨by simpa using ihs, ?_⟩
              intro d hd
              simp only [submitDelta, List.nil_append] at hd
              have := ihb d hd
              exact ⟨lt_of_le_of_lt hm1 this.1, this.2⟩
          | workerTake i =>
              refine ⟨by simpa using ihs, ?_⟩
              intro d hd
              simp only [submitDelta, List.nil_append] at hd
              have := ihb d hd
              exact ⟨lt_of_le_of_lt hm1 this.1, this.2⟩
          | workerExit i =>
              refine ⟨by simpa using ihs, ?_⟩
              intro d hd
              simp only [submitDelta, List.nil_append] at hd
              have := ihb d hd
              exact ⟨lt_of_le_of_lt hm1 this.1, this.2⟩
          | workerRun i =>
              refine ⟨by simpa using ihs, ?_⟩
              intro d hd
              simp only [submitDelta, List.nil_append] at hd
              have := ihb d hd
              exact ⟨lt_of_le_of_lt hm1 this.1, this.2⟩
          | workerFinish i =>
              refine ⟨by simpa using ihs, ?_⟩
              intro d hd
              simp only [submitDelta, List.nil_append] at hd
              have := ihb d hd
              exact ⟨lt_of_le_of_lt hm1 this.1, this.2⟩

/-- C7: Completion-tracker invariant, preserved by every operation of the
pool: in every reachable state the set of completed task identifiers is a
subset of the integer interval 1 .. lastTaskId (the largest identifier
assigned so far), the completed-count equals the size of the completed set
(the source keeps no separate counter: the count is
completedTaskIds_.size()), and whenever the waitAll predicate holds - which
is exactly when waitAll returns - the completed-count equals the
total-submitted count lastTaskId observed in that same state. -/
theorem completion_tracker_invariant (n : Nat) (es : List Event) (s : PoolState)
    (hr : run (initState n) es = some s) :
    s.completedTaskIds ⊆ Finset.Icc 1 s.lastTaskId
    ∧ completedCount s = s.completedTaskIds.card
    ∧ (waitAllPred s → (completedCount s : Int) = s.lastTaskId) := by
  refine ⟨(run_Inv_init hr).completedSub, rfl, ?_⟩
  intro h
  exact h

theorem completion_tracker_invariant_witness :
    ({1} : Finset Int) ⊆ Finset.Icc 1 1 :=
  (completion_tracker_invariant 1
    [Event.addTask ExecOutcome.ok, Event.workerTake 0, Event.workerRun 0, Event.workerFinish 0]
    { tasksQueue := [], completedTaskIds := {1}, lastTaskId := 1, isTerminated := false,
      workers := [WorkerPhase.idle] } (by decide)).1

/-- C2: waitAll blocks until the completed count equals the total-submitted
count, both observed together in one state (one acquisition of mutex_s_,
with lastTaskId_ read by a single atomic load inside the wait predicate);
s0 is the state when the waitAll call starts and s the state in which the
predicate evaluation succeeds and the call returns.  Every task submitted
before the call started has an id of at most s0.lastTaskId, and every such
id is then in the completed set. -/
theorem waitAll_completes_prior_tasks (n : Nat) (es1 es2 : List Event) (s0 s : PoolState)
    (h1 : run (initState n) es1 = some s0) (h2 : run s0 es2 = some s)
    (hp : waitAllPred s) (tid : Int) (ht1 : 1 ≤ tid) (ht2 : tid ≤ s0.lastTaskId) :
    tid ∈ s.completedTaskIds := by
  have hrun : run (initState n) (es1 ++ es2) = some s := by
    rw [run_append, h1]
    exact h2
  have hInv := run_Inv_init hrun
  have hmono := run_lastTaskId_mono h2
  have hcard : (Finset.Icc (1 : Int) s.lastTaskId).card ≤ s.completedTaskIds.card := by
    rw [Int.card_Icc]
    unfold waitAllPred at hp
    omega
  have heq := Finset.eq_of_subset_of_card_le hInv.completedSub hcard
  rw [heq]
  exact Finset.mem_Icc.mpr ⟨ht1, le_trans ht2 hmono⟩

theorem waitAll_completes_prior_tasks_witness :
    (1 : Int) ∈ ({1} : Finset Int) :=
  waitAll_completes_prior_tasks 1 [Event.addTask ExecOutcome.ok]
    [Event.workerTake 0, Event.workerRun 0, Event.workerFinish 0]
    { tasksQueue := [{ executable := some ExecOutcome.ok, taskId := 1 }],
      completedTaskIds := ∅, lastTaskId := 1, isTerminated := false,
      workers := [WorkerPhase.idle] }
    { tasksQueue := [], completedTaskIds := {1}, lastTaskId := 1, isTerminated := false,
      workers := [WorkerPhase.idle] }
    (by decide) (by decide) (by decide) 1 (by decide) (by decide)

/-- C6: FIFO dequeue order.  Task ids are assigned in submission order
(second conjunct: along any trace the assigned ids are strictly
increasing), so a task A submitted before a task B has a smaller id.  The
dequeue history is strictly increasing in those ids (first conjunct), so
dequeues happen in submission order; and whenever B has been dequeued,
every earlier-submitted A has already been dequeued - it occurs in the
dequeue history, necessarily at an earlier position by sortedness (third
conjunct). -/
theorem fifo_dequeue_order (n : Nat) (es : List Event) (s : PoolState)
    (hr : run (initState n) es = some s) :
    (takesAlong (initState n) es).Sorted (· < ·)
    ∧ (submitsAlong (initState n) es).Sorted (· < ·)
    ∧ (∀ a b : Int, 1 ≤ a → a < b → b ∈ takesAlong (initState n) es →
        a ∈ takesAlong (initState n) es) := by
  have hT := run_TInv_init hr
  refine ⟨hT.takesSorted, (submitsAlong_sorted_bounds hr).1, ?_⟩
  intro a b ha hab hb
  have hbr := hT.takesRange b hb
  rcases hT.cover a ha (by omega) with h | h
  · exfalso
    simp only [realQueueIds, realIds, List.mem_map, List.mem_filter] at h
    obtain ⟨t, ⟨htq, htre⟩, hid⟩ := h
    have := hT.takesLt b hb t htq htre
    omega
  · exact h

theorem fifo_dequeue_order_witness :
    (takesAlong (initState 1)
        [Event.addTask ExecOutcome.ok, Event.addTask ExecOutcome.ok, Event.workerTake 0,
          Event.workerRun 0, Event.workerFinish 0, Event.workerTake 0]).Sorted (· < ·)
    ∧ (submitsAlong (initState 1)
        [Event.addTask ExecOutcome.ok, Event.addTask ExecOutcome.ok, Event.workerTake 0,
          Event.workerRun 0, Event.workerFinish 0, Event.workerTake 0]).Sorted (· < ·)
    ∧ (∀ a b : Int, 1 ≤ a → a < b →
        b ∈ takesAlong (initState 1)
          [Event.addTask ExecOutcome.ok, Event.addTask ExecOutcome.ok, Event.workerTake 0,
            Event.workerRun 0, Event.workerFinish 0, Event.workerTake 0] →
        a ∈ takesAlong (initState 1)
          [Event.addTask ExecOutcome.ok, Event.addTask ExecOutcome.ok, Event.workerTake 0,
            Event.workerRun 0, Event.workerFinish 0, Event.workerTake 0]) :=
  fifo_dequeue_order 1
    [Event.addTask ExecOutcome.ok, Event.addTask ExecOutcome.ok, Event.workerTake 0,
      Event.workerRun 0, Event.workerFinish 0, Event.workerTake 0]
    { tasksQueue := [], completedTaskIds := {1}, lastTaskId := 2, isTerminated := false,
      workers := [WorkerPhase.executing { executable := some ExecOutcome.ok, taskId := 2 }] }
    (by decide)

/-- C8: Shutdown is irreversible.  The isTerminated_.store(true) at the
start of stopProcessingTasks leaves the flag true, and no sequence of
subsequent operations of the pool ever resets it to false: the pool never
returns to the running state. -/
theorem stopProcessingTasks_irreversible (s s' : PoolState)
    (hstore : step s Event.storeTerminated = some s') :
    s'.isTerminated = true
    ∧ (∀ es s'', run s' es = some s'' → s''.isTerminated = true) := by
  have h1 : s'.isTerminated = true := by
    simp only [step, Option.some.injEq] at hstore
    subst hstore
    rfl
  exact ⟨h1, fun es s'' hr => run_terminated_mono hr h1⟩

def terminatedIdleState : PoolState :=
  { tasksQueue := [], completedTaskIds := ∅, lastTaskId := 0, isTerminated := true,
    workers := [WorkerPhase.idle] }

theorem stopProcessingTasks_irreversible_witness :
    terminatedIdleState.isTerminated = true
    ∧ (∀ es s'', run terminatedIdleState es = some s'' → s''.isTerminated = true) :=
  stopProcessingTasks_irreversible (initState 1) terminatedIdleState (by decide)

/-- C5: For every invalid identifier - zero, negative, or greater than the
largest identifier ever assigned (lastTaskId_ is exactly that largest
value: ids 1 .. lastTaskId_ are the assigned ones) - isValidTaskId is
false, so waitTask skips its condition-variable wait entirely and returns
immediately as a no-op, and isCompleted returns false before taking any
lock. -/
theorem invalid_taskId_noop (s : PoolState) (tid : Int)
    (h : tid ≤ 0 ∨ s.lastTaskId < tid) :
    isValidTaskId s tid = false
    ∧ waitTaskReturnsImmediately s tid = true
    ∧ isCompleted s tid = false := by
  have hv : isValidTaskId s tid = false := by
    simp only [isValidTaskId, Bool.and_eq_false_iff, decide_eq_false_iff_not, not_le, not_lt]
    rcases h with h | h
    · right
      omega
    · left
      omega
  refine ⟨hv, ?_, ?_⟩
  · simp [waitTaskReturnsImmediately, hv]
  · simp [isCompleted, hv]

theorem invalid_taskId_noop_witness :
    isValidTaskId (initState 1) 0 = false
    ∧ waitTaskReturnsImmediately (initState 1) 0 = true
    ∧ isCompleted (initState 1) 0 = false :=
  invalid_taskId_noop (initState 1) 0 (by decide)

/-- C10: The sentinel.  stopProcessingTasks enqueues exactly one
default-constructed Task (empty std::function, task id 0) per call (first
conjunct).  In every reachable state a worker only ever holds a real task:
the sentinel is never popped and its empty executable - whose invocation
would throw std::bad_function_call - is never invoked (second conjunct;
a worker that finds the queue non-empty with the terminated flag set exits
before popping, and popping requires the flag to be false, which by the
third conjunct rules out a sentinel at the front or anywhere in the
queue).  Finally, once the flag is set and the queue is non-empty - as it
is after stopProcessingTasks returns - the queue stays non-empty forever
(fourth conjunct). -/
theorem sentinel_never_popped (n : Nat) (es : List Event) (s : PoolState)
    (hr : run (initState n) es = some s) :
    (∀ s0 s1 : PoolState, step s0 Event.pushSentinel = some s1 →
        s1.tasksQueue = s0.tasksQueue ++ [sentinelTask])
    ∧ (∀ i t, s.workers.get? i = some (WorkerPhase.executing t) → t.executable.isSome = true)
    ∧ (∀ t ∈ s.tasksQueue, t.executable = none → t.taskId = 0 ∧ s.isTerminated = true)
    ∧ (s.isTerminated = true → s.tasksQueue ≠ [] →
        ∀ es2 s2, run s es2 = some s2 → s2.tasksQueue ≠ []) := by
  have hInv := run_Inv_init hr
  refine ⟨?_, ?_, hInv.queueSentinel, ?_⟩
  · intro s0 s1 h
    simp only [step] at h
    split at h
    next =>
      simp only [Option.some.injEq] at h
      subst h
      rfl
    next => cases h
  · intro i t h
    exact (hInv.execPhase i t h).1
  · intro hterm hne es2 s2 hr2
    exact run_terminated_queue_ne hr2 hterm hne

def terminatedSentinelState : PoolState :=
  { tasksQueue := [sentinelTask], completedTaskIds := ∅, lastTaskId := 0,
    isTerminated := true, workers := [WorkerPhase.stopped] }

theorem sentinel_never_popped_witness :
    (∀ s0 s1 : PoolState, step s0 Event.pushSentinel = some s1 →
        s1.tasksQueue = s0.tasksQueue ++ [sentinelTask])
    ∧ (∀ i t, terminatedSentinelState.workers.get? i = some (WorkerPhase.executing t) →
        t.executable.isSome = true)
    ∧ (∀ t ∈ terminatedSentinelState.tasksQueue, t.executable = none →
        t.taskId = 0 ∧ terminatedSentinelState.isTerminated = true)
    ∧ (terminatedSentinelState.isTerminated = true →
        terminatedSentinelState.tasksQueue ≠ [] →
        ∀ es2 s2, run terminatedSentinelState es2 = some s2 → s2.tasksQueue ≠ []) :=
  sentinel_never_popped 1 [Event.storeTerminated, Event.pushSentinel, Event.workerExit 0]
    terminatedSentinelState (by decide)

/-- C1 counterexample: shutdown is signalled (stopProcessingTasks runs to
completion) while task 1 is still queued and not yet started; the single
worker then wakes, finds the queue non-empty with the terminated flag set,
and exits without dequeuing, executing or completing task 1.  A worker
thread thus exits while a task that was already in the queue never runs to
completion: the dequeue and execution histories of the whole trace are
empty, the completed set is empty, and task 1 is still sitting in the
queue in front of the sentinel. -/
theorem graceful_shutdown_counterexample :
    run (initState 1) [Event.addTask ExecOutcome.ok, Event.storeTerminated,
        Event.pushSentinel, Event.workerExit 0]
      = some { tasksQueue := [{ executable := some ExecOutcome.ok, taskId := 1 }, sentinelTask],
               completedTaskIds := ∅, lastTaskId := 1, isTerminated := true,
               workers := [WorkerPhase.stopped] }
    ∧ takesAlong (initState 1) [Event.addTask ExecOutcome.ok, Event.storeTerminated,
        Event.pushSentinel, Event.workerExit 0] = []
    ∧ execsAlong (initState 1) [Event.addTask ExecOutcome.ok, Event.storeTerminated,
        Event.pushSentinel, Event.workerExit 0] = [] := by decide

/-- C1 amended: signalling shutdown makes a worker that finds the queue
non-empty exit at the top of its loop instead of dequeuing, so
queued-but-unstarted tasks are abandoned, exactly as the source's own
comment on stopProcessingTasks says ("reject all queued tasks and finish
work after finishing current tasks").  What still holds of the original
claim: a worker only ever exits from the top of the loop - from the idle
phase, with the flag set and the queue non-empty (first conjunct) - so a
worker never abandons its in-flight task: after shutdown is signalled no
new task is ever started (second conjunct: a dequeue step requires the
flag to be false), and a worker that has finished executing its in-flight
task still records its completion (third conjunct). -/
theorem shutdown_abandons_queued (s s' : PoolState) (e : Event)
    (hs : step s e = some s') :
    (∀ i, s.workers.get? i ≠ some WorkerPhase.stopped →
        s'.workers.get? i = some WorkerPhase.stopped →
        s.workers.get? i = some WorkerPhase.idle ∧ s.isTerminated = true ∧ s.tasksQueue ≠ [])
    ∧ (∀ i, e = Event.workerTake i → s.isTerminated = false)
    ∧ (∀ i tid, e = Event.workerFinish i →
        s.workers.get? i = some (WorkerPhase.completing tid) → tid ∈ s'.completedTaskIds) := by
  refine ⟨?_, ?_, ?_⟩
  · intro i hne hst
    cases e with
    | addTask body =>
        simp only [step, Option.some.injEq] at hs
        subst hs
        exact absurd hst hne
    | storeTerminated =>
        simp only [step, Option.some.injEq] at hs
        subst hs
        exact absurd hst hne
    | pushSentinel =>
        simp only [step] at hs
        split at hs
        next =>
          simp only [Option.some.injEq] at hs
          subst hs
          exact absurd hst hne
        next => cases hs
    | workerTake j =>
        simp only [step] at hs
        split at hs
        next t rest hw hq =>
          split at hs
          next => cases hs
          next =>
            simp only [Option.some.injEq] at hs
            subst hs
            dsimp only at hst
            by_cases hij : j = i
            · subst hij
              rw [List.get?_set_eq_of_lt _ (get?_some_lt hw)] at hst
              cases hst
            · rw [List.get?_set_ne _ _ hij] at hst
              exact absurd hst hne
        next => cases hs
    | workerExit j =>
        simp only [step] at hs
        split at hs
        next t rest hw hq =>
          split at hs
          next hterm =>
            simp only [Option.some.injEq] at hs
            subst hs
            dsimp only at hst
            by_cases hij : j = i
            · subst hij
              refine ⟨hw, hterm, ?_⟩
              rw [hq]
              exact List.cons_ne_nil t rest
            · rw [List.get?_set_ne _ _ hij] at hst
              exact absurd hst hne
          next => cases hs
        next => cases hs
    | workerRun j =>
        simp only [step] at hs
        split at hs
        next t hw =>
          have hset : ∃ ph : WorkerPhase, ph ≠ WorkerPhase.stopped ∧
              s' = { s with workers := s.workers.set j ph } := by
            split at hs
            next =>
              simp only [Option.some.injEq] at hs
              exact ⟨WorkerPhase.completing t.taskId, by simp, hs.symm⟩
            next =>
              simp only [Option.some.injEq] at hs
              exact ⟨WorkerPhase.crashed, by simp, hs.symm⟩
            next =>
              simp only [Option.some.injEq] at hs
              exact ⟨WorkerPhase.crashed, by simp, hs.symm⟩
          obtain ⟨ph, hphne, rfl⟩ := hset
          dsimp only at hst
          by_cases hij : j = i
          · subst hij
            rw [List.get?_set_eq_of_lt _ (get?_some_lt hw)] at hst
            injection hst with h
            exact absurd h hphne
          · rw [List.get?_set_ne _ _ hij] at hst
            exact absurd hst hne
        next => cases hs
    | workerFinish j =>
        simp only [step] at hs
        split at hs
        next tid hw =>
          simp only [Option.some.injEq] at hs
          subst hs
          dsimp only at hst
          by_cases hij : j = i
          · subst hij
            rw [List.get?_set_eq_of_lt _ (get?_some_lt hw)] at hst
            cases hst
          · rw [List.get?_set_ne _ _ hij] at hst
            exact absurd hst hne
        next => cases hs
  · intro i he
    subst he
    simp only [step] at hs
    split at hs
    next t rest hw hq =>
      split at hs
      next => cases hs
      next hterm =>
        cases hb : s.isTerminated
        · rfl
        · exact absurd hb hterm
    next => cases hs
  · intro i tid he hw
    subst he
    simp only [step, hw, Option.some.injEq] at hs
    subst hs
    exact Finset.mem_insert_self tid _

def preExitState : PoolState :=
  { tasksQueue := [{ executable := some ExecOutcome.ok, taskId := 1 }, sentinelTask],
    completedTaskIds := ∅, lastTaskId := 1, isTerminated := true,
    workers := [WorkerPhase.idle] }

def postExitState : PoolState :=
  { tasksQueue := [{ executable := some ExecOutcome.ok, taskId := 1 }, sentinelTask],
    completedTaskIds := ∅, lastTaskId := 1, isTerminated := true,
    workers := [WorkerPhase.stopped] }

theorem shutdown_abandons_queued_witness :
    preExitState.workers.get? 0 = some WorkerPhase.idle
    ∧ preExitState.isTerminated = true ∧ preExitState.tasksQueue ≠ [] :=
  (shutdown_abandons_queued preExitState postExitState (Event.workerExit 0) (by decide)).1 0
    (by decide) (by decide)

/-- C3: the assigned-id part of the claim holds (identifiers start at 1 and
are strictly increasing in assignment order; see the sorted submission
history in fifo_dequeue_order), but the returned value does not.  addTask
assigns the id with the pre-increment ++lastTaskId_ inside the mutex_q_
critical section, yet returns a fresh load of lastTaskId_ after the lock
has been released.  In the interleaving below, a first caller's critical
section assigns id 1 to its task; before that caller reaches its
`return lastTaskId_;` statement a second caller's critical section assigns
id 2; the first call then returns 2, not the id 1 of the task it just
enqueued - contradicting the function's documented return value ("Id of a
new task"). -/
theorem addTask_return_value_divergence :
    addTaskAssignedId (initState 2) = 1
    ∧ run (initState 2) [Event.addTask ExecOutcome.ok, Event.addTask ExecOutcome.ok]
        = some { tasksQueue := [{ executable := some ExecOutcome.ok, taskId := 1 },
                   { executable := some ExecOutcome.ok, taskId := 2 }],
                 completedTaskIds := ∅, lastTaskId := 2, isTerminated := false,
                 workers := [WorkerPhase.idle, WorkerPhase.idle] }
    ∧ addTaskReturn { tasksQueue := [{ executable := some ExecOutcome.ok, taskId := 1 },
                        { executable := some ExecOutcome.ok, taskId := 2 }],
                      completedTaskIds := ∅, lastTaskId := 2, isTerminated := false,
                      workers := [WorkerPhase.idle, WorkerPhase.idle] } = 2 := by decide

/-- C4 counterexample: a task whose callable raises an exception is
submitted through ThreadPool::addTask (which binds the callable directly
into a std::function, with no packaged_task wrapper) and executed by the
single worker.  threadMain has no try/catch around
taskToComplete.executable(), so the exception propagates out of the worker
loop - the worker ends in the crashed phase (an exception escaping the
thread function calls std::terminate) instead of continuing to dequeue
subsequent tasks, and nothing is recorded in the completed set. -/
theorem worker_exception_crash_counterexample :
    run (initState 1) [Event.addTask ExecOutcome.raises, Event.workerTake 0, Event.workerRun 0]
      = some { tasksQueue := [], completedTaskIds := ∅, lastTaskId := 1, isTerminated := false,
               workers := [WorkerPhase.crashed] } := by decide

/-- C4 amended: ThreadPool::threadMain itself has no exception handling: if
the task's executable raises, the worker transitions to the crashed phase
(first conjunct - the exception escapes threadMain and the program is
terminated).  The failure-capturing behaviour of the claim belongs to the
packaged-task wrapper of src/ThreadPool/Callable.h: invoking
callable_derived::operator() runs the stored std::packaged_task, which
captures a raised exception into the future's shared state and returns
normally, so a worker running a packaged-task-wrapped callable never
crashes and proceeds to record completion (second conjunct), with the
failure routed to the result slot (third conjunct). -/
theorem packaged_task_captures_exception (s : PoolState) (i : Nat) (t : Task)
    (body : ExecOutcome)
    (hw : s.workers.get? i = some (WorkerPhase.executing t)) :
    (t.executable = some ExecOutcome.raises →
        step s (Event.workerRun i)
          = some { s with workers := s.workers.set i WorkerPhase.crashed })
    ∧ (t.executable = some (packagedTaskInvoke body).1 →
        step s (Event.workerRun i)
          = some { s with workers := s.workers.set i (WorkerPhase.completing t.taskId) })
    ∧ (packagedTaskInvoke ExecOutcome.raises).2 = FutureState.exn := by
  refine ⟨?_, ?_, rfl⟩
  · intro hx
    simp only [step, hw, hx]
  · intro hx
    have hok : (packagedTaskInvoke body).1 = ExecOutcome.ok := by
      cases body <;> rfl
    rw [hok] at hx
    simp only [step, hw, hx]

def wrappedTaskState : PoolState :=
  { tasksQueue := [], completedTaskIds := ∅, lastTaskId := 1, isTerminated := false,
    workers := [WorkerPhase.executing { executable := some ExecOutcome.ok, taskId := 1 }] }

theorem packaged_task_captures_exception_witness :
    step wrappedTaskState (Event.workerRun 0)
      = some { wrappedTaskState with
          workers := wrappedTaskState.workers.set 0 (WorkerPhase.completing 1) } :=
  (packaged_task_captures_exception wrappedTaskState 0
    { executable := some ExecOutcome.ok, taskId := 1 } ExecOutcome.raises (by decide)).2.1
    (by decide)

/-- C9 counterexample: two tasks are submitted and shutdown is signalled
before any worker picks them up; both workers exit.  Neither task is ever
removed from the queue (the dequeue history of the trace is empty), so it
is not the case that every submitted task is removed by a worker - and by
the last conjunct of dequeue_at_most_once no continuation of this trace
can ever remove them, since the terminated flag is set. -/
theorem exactly_once_counterexample :
    run (initState 2) [Event.addTask ExecOutcome.ok, Event.addTask ExecOutcome.ok,
        Event.storeTerminated, Event.pushSentinel, Event.workerExit 0, Event.workerExit 1]
      = some { tasksQueue := [{ executable := some ExecOutcome.ok, taskId := 1 },
                 { executable := some ExecOutcome.ok, taskId := 2 }, sentinelTask],
               completedTaskIds := ∅, lastTaskId := 2, isTerminated := true,
               workers := [WorkerPhase.stopped, WorkerPhase.stopped] }
    ∧ takesAlong (initState 2) [Event.addTask ExecOutcome.ok, Event.addTask ExecOutcome.ok,
        Event.storeTerminated, Event.pushSentinel, Event.workerExit 0, Event.workerExit 1]
      = [] := by decide

/-- C9 amended: at-most-once ownership transfer.  Along any trace each task
id is dequeued at most once (the dequeue history has no duplicates), the
executable of a dequeued task is invoked at most once (the execution
history has no duplicates), only dequeued tasks are ever invoked (third
conjunct: removal from the queue under mutex_q_ transfers ownership to the
popping worker, and the heldDistinct/heldFresh clauses of the trace
invariant show no two workers ever hold the same task), and a task still
queued once the terminated flag is set is never removed at all (fourth
conjunct). -/
theorem dequeue_at_most_once (n : Nat) (es : List Event) (s : PoolState)
    (hr : run (initState n) es = some s) :
    (takesAlong (initState n) es).Nodup
    ∧ (execsAlong (initState n) es).Nodup
    ∧ (∀ d ∈ execsAlong (initState n) es, d ∈ takesAlong (initState n) es)
    ∧ (s.isTerminated = true → ∀ es2, takesAlong s es2 = []) := by
  have hT := run_TInv_init hr
  exact ⟨hT.takesSorted.nodup, hT.execsNodup, hT.execsTakes,
    fun h es2 => takesAlong_terminated h es2⟩

def oneDoneState : PoolState :=
  { tasksQueue := [], completedTaskIds := {1}, lastTaskId := 1, isTerminated := false,
    workers := [WorkerPhase.idle] }

theorem dequeue_at_most_once_witness :
    (takesAlong (initState 1)
        [Event.addTask ExecOutcome.ok, Event.workerTake 0, Event.workerRun 0,
          Event.workerFinish 0]).Nodup
    ∧ (execsAlong (initState 1)
        [Event.addTask ExecOutcome.ok, Event.workerTake 0, Event.workerRun 0,
          Event.workerFinish 0]).Nodup
    ∧ (∀ d ∈ execsAlong (initState 1)
        [Event.addTask ExecOutcome.ok, Event.workerTake 0, Event.workerRun 0,
          Event.workerFinish 0],
        d ∈ takesAlong (initState 1)
          [Event.addTask ExecOutcome.ok, Event.workerTake 0, Event.workerRun 0,
            Event.workerFinish 0])
    ∧ (oneDoneState.isTerminated = true → ∀ es2, takesAlong oneDoneState es2 = []) :=
  dequeue_at_most_once 1
    [Event.addTask ExecOutcome.ok, Event.workerTake 0, Event.workerRun 0, Event.workerFinish 0]
    oneDoneState (by decide)

end ThreadPool
